import Mathlib

/-!
Verification of the delivery-planning core of the cat-HiroUniv-Tuning-2511
web application backend.

The Go sources embedded here:
  * `internal/service/robot.go` — `GenerateDeliveryPlan`,
    `selectOrdersForDelivery` (two-row 0/1-knapsack DP with a per-item
    choice table and backward reconstruction), and
    `selectOrdersForDeliveryDFS` (exhaustive include/exclude fallback).
  * `internal/repository/order.go` — `GetShippingOrders`,
    `UpdateStatusesConditional`, `UpdateStatuses`.

Modelling conventions:
  * Go `int` weights, values and capacities are modelled as `Nat`; every
    claim under consideration restricts them to non-negative values
    (weights even to positive ones), and no quantity in these code paths
    can overflow 64-bit machine integers at the modelled sizes.
  * The deadline context produced by `utils.WithTimeout` (a thin wrapper
    around `context.WithTimeout`, not part of the sources under
    verification) is modelled as a Boolean cancellation signal `ctx`
    that is constant over one call: each `select { case <-ctx.Done() }`
    check observes the same value.  Fallible code returns
    `Except PlanErr`.
  * Database rows are modelled as a list of `OrderRow`; the
    `orders JOIN products` of the SQL queries is flattened, each row
    carrying the weight/value of its product.  SQL `UPDATE` statements
    become pure functions from row lists to row lists together with the
    MySQL affected-row count (rows actually changed).
-/

namespace CatTuning

/-- `model.Order`, restricted to the fields the planning core reads
(`OrderID`, `Weight`, `Value`; see their uses in `robot.go` and in the
scan loop of `GetShippingOrders`). -/
structure Order where
  orderID : Int
  weight : Nat
  value : Nat
deriving DecidableEq

/-- `model.DeliveryPlan` as used by `robot.go`: robot identifier, total
weight, total value and the selected orders. -/
structure DeliveryPlan where
  robotID : String
  totalWeight : Nat
  totalValue : Nat
  orders : List Order
deriving DecidableEq

/-- The only failure the planning engine itself produces: `ctx.Err()`
after a cancellation check fired. -/
inductive PlanErr where
  | cancelled
deriving DecidableEq

/-- Total weight of a list of orders (the `totalWeight` summation loops
of `robot.go`). -/
def sumWeight (s : List Order) : Nat := (s.map Order.weight).sum

/-- Total value of a list of orders. -/
def sumValue (s : List Order) : Nat := (s.map Order.value).sum

/-- `maxCapacityForDP` constant of `selectOrdersForDelivery`. -/
def maxCapacityForDP : Nat := 100000

/-! ## The DP path of `selectOrdersForDelivery` -/

/-- One iteration of the outer DP loop, as a function on rows
(`dp` rows are `Nat → Nat`; indices beyond the capacity are never read
by the algorithm).  `currRow` starts as a copy of `prevRow` and, for
`weight ≤ w ≤ robotCapacity`, is raised to
`prevRow[w-weight] + value` exactly when that is strictly larger. -/
def dpStep (cap : Nat) (o : Order) (prev : Nat → Nat) : Nat → Nat :=
  fun w =>
    if o.weight ≤ w ∧ w ≤ cap ∧ prev w < prev (w - o.weight) + o.value
    then prev (w - o.weight) + o.value
    else prev w

/-- The `choice[i]` row recorded for item `i`: `choice[i][w] = true`
iff taking item `i` at capacity `w` was strictly better. -/
def dpChoice (cap : Nat) (o : Order) (prev : Nat → Nat) : Nat → Bool :=
  fun w =>
    decide (o.weight ≤ w ∧ w ≤ cap ∧ prev w < prev (w - o.weight) + o.value)

/-- The main DP loop of `selectOrdersForDelivery`: processes the orders
in input order, threading the current row, and accumulates the
`(order, choice-row)` pairs with the *last* processed item first (the
order in which the reconstruction loop walks them).  At the top of each
iteration `i` with `i % 1000 == 0` the context is checked; a fired
cancellation aborts with `ctx.Err()`. -/
def dpRun (ctx : Bool) (cap : Nat) :
    List Order → Nat → (Nat → Nat) → List (Order × (Nat → Bool)) →
    Except PlanErr ((Nat → Nat) × List (Order × (Nat → Bool)))
  | [], _, prev, acc => .ok (prev, acc)
  | o :: os, i, prev, acc =>
    if i % 1000 == 0 && ctx then .error PlanErr.cancelled
    else dpRun ctx cap os (i + 1) (dpStep cap o prev)
      ((o, dpChoice cap o prev) :: acc)

/-- The reconstruction loop of `selectOrdersForDelivery`: walks the
items backwards (the pair list already has the last item first), takes
item `i` whenever `choice[i][w]`, decrementing `w` by its weight.  At
the top of each iteration `j` with `j % 1000 == 0` the context is
checked. -/
def reconRun (ctx : Bool) :
    List (Order × (Nat → Bool)) → Nat → Nat → Except PlanErr (List Order)
  | [], _, _ => .ok []
  | (o, ch) :: rest, j, w =>
    if j % 1000 == 0 && ctx then .error PlanErr.cancelled
    else if ch w then
      match reconRun ctx rest (j + 1) (w - o.weight) with
      | .error e => .error e
      | .ok s => .ok (o :: s)
    else reconRun ctx rest (j + 1) w

/-! ## The DFS fallback `selectOrdersForDeliveryDFS` -/

/-- The mutable closure state of `selectOrdersForDeliveryDFS`:
`bestValue`, `bestSet` and the `steps` counter. -/
structure DfsState where
  bestValue : Nat
  bestSet : List Order
  steps : Nat
deriving DecidableEq

/-- `checkEvery` constant of `selectOrdersForDeliveryDFS`. -/
def checkEvery : Nat := 16384

/-- The recursive `dfs` closure: prunes when the accumulated weight
exceeds the capacity, bumps `steps` and checks the context every
`checkEvery` steps (returning `true` = cancelled), records a strictly
better leaf, and otherwise explores exclude-then-include.  `curSet` is
passed by value (the Go slice is only ever read up to its length and
copied on record). -/
def dfsGo (ctx : Bool) (cap : Nat) :
    List Order → Nat → Nat → List Order → DfsState → Bool × DfsState
  | [], curWeight, curValue, curSet, st =>
    if cap < curWeight then (false, st)
    else if (st.steps + 1) % checkEvery == 0 && ctx then
      (true, ⟨st.bestValue, st.bestSet, st.steps + 1⟩)
    else if st.bestValue < curValue then
      (false, ⟨curValue, curSet, st.steps + 1⟩)
    else (false, ⟨st.bestValue, st.bestSet, st.steps + 1⟩)
  | o :: rest, curWeight, curValue, curSet, st =>
    if cap < curWeight then (false, st)
    else if (st.steps + 1) % checkEvery == 0 && ctx then
      (true, ⟨st.bestValue, st.bestSet, st.steps + 1⟩)
    else
      let r1 := dfsGo ctx cap rest curWeight curValue curSet
        ⟨st.bestValue, st.bestSet, st.steps + 1⟩
      if r1.1 then r1
      else dfsGo ctx cap rest (curWeight + o.weight) (curValue + o.value)
        (curSet ++ [o]) r1.2

/-- `selectOrdersForDeliveryDFS`: runs the search from the empty
selection with `bestValue = 0`, `bestSet = nil`, `steps = 0`; on
cancellation returns `ctx.Err()`, otherwise re-sums the weights of the
best set and builds the plan. -/
def selectOrdersForDeliveryDFS (ctx : Bool) (orders : List Order)
    (robotID : String) (robotCapacity : Nat) : Except PlanErr DeliveryPlan :=
  let r := dfsGo ctx robotCapacity orders 0 0 [] ⟨0, [], 0⟩
  if r.1 then .error PlanErr.cancelled
  else .ok ⟨robotID, sumWeight r.2.bestSet, r.2.bestValue, r.2.bestSet⟩

/-- `selectOrdersForDelivery`: empty input yields the empty plan;
capacities above `maxCapacityForDP` fall back to the DFS; otherwise the
two-row DP runs, the best value is read off the last row at full
capacity, and the chosen subset is reconstructed backwards. -/
def selectOrdersForDelivery (ctx : Bool) (orders : List Order)
    (robotID : String) (robotCapacity : Nat) : Except PlanErr DeliveryPlan :=
  if orders.length = 0 then
    .ok ⟨robotID, 0, 0, []⟩
  else if maxCapacityForDP < robotCapacity then
    selectOrdersForDeliveryDFS ctx orders robotID robotCapacity
  else
    match dpRun ctx robotCapacity orders 0 (fun _ => 0) [] with
    | .error e => .error e
    | .ok (lastRow, pairs) =>
      match reconRun ctx pairs 0 robotCapacity with
      | .error e => .error e
      | .ok bestSet =>
        .ok ⟨robotID, sumWeight bestSet, lastRow robotCapacity, bestSet⟩

/-! ## The repository layer (`internal/repository/order.go`)

The database is a list of flattened `orders JOIN products` rows. -/

/-- One row of the `orders` table joined with its product: identifier,
product weight, product value and `shipped_status`. -/
structure OrderRow where
  orderID : Int
  weight : Nat
  value : Nat
  shippedStatus : String
deriving DecidableEq

/-- The projection the scan loop of `GetShippingOrders` performs
(`rows.Scan(&o.OrderID, &o.Weight, &o.Value)`). -/
def rowToOrder (r : OrderRow) : Order := ⟨r.orderID, r.weight, r.value⟩

/-- `defaultCandidateLimit` constant of `GetShippingOrders`. -/
def defaultCandidateLimit : Nat := 2000

/-- The `ORDER BY (p.value / NULLIF(p.weight, 0)) DESC` comparison:
`a` sorts no later than `b`.  A zero weight makes the ratio `NULL`,
which MySQL places last under `DESC`; otherwise ratios are compared by
cross-multiplication.  Ties are left in their relative insertion order
(SQL leaves tie order unspecified; no claim depends on it). -/
def ratioGe (a b : OrderRow) : Bool :=
  if a.weight = 0 then false
  else if b.weight = 0 then true
  else decide (b.value * a.weight ≤ a.value * b.weight)

/-- Insertion step of the `ORDER BY` model. -/
def insertByRatio (a : OrderRow) : List OrderRow → List OrderRow
  | [] => [a]
  | b :: rest =>
    if ratioGe a b then a :: b :: rest else b :: insertByRatio a rest

/-- The `ORDER BY` model: an insertion sort by `ratioGe`. -/
def sortByRatio : List OrderRow → List OrderRow
  | [] => []
  | a :: rest => insertByRatio a (sortByRatio rest)

/-- `GetShippingOrders`: the SQL
`SELECT o.order_id, p.weight, p.value FROM orders o JOIN products p
 WHERE o.shipped_status = 'shipping'
 ORDER BY (p.value / NULLIF(p.weight, 0)) DESC LIMIT 2000`
— filter to the awaiting-shipment rows, sort by value/weight ratio,
truncate to `defaultCandidateLimit` rows, and project each row to an
`Order`. -/
def GetShippingOrders (db : List OrderRow) : List Order :=
  (((sortByRatio (db.filter fun r => r.shippedStatus == "shipping"))).take
    defaultCandidateLimit).map rowToOrder

/-- `UpdateStatusesConditional`: the SQL
`UPDATE orders SET shipped_status = ? WHERE order_id IN (?) AND
 shipped_status = ?` plus `RowsAffected`.  Rows whose identifier is in
`orderIDs` and whose status equals `expectedCurrent` get `newStatus`;
`RowsAffected` counts the rows MySQL actually changed (a row already
carrying `newStatus` is matched but not changed).  An empty identifier
list returns `(0, nil)` without touching the store. -/
def UpdateStatusesConditional (db : List OrderRow) (orderIDs : List Int)
    (newStatus expectedCurrent : String) : List OrderRow × Nat :=
  if orderIDs = [] then (db, 0)
  else
    (db.map fun r =>
      if r.orderID ∈ orderIDs ∧ r.shippedStatus = expectedCurrent
      then { r with shippedStatus := newStatus } else r,
     (db.filter fun r =>
       decide (r.orderID ∈ orderIDs ∧ r.shippedStatus = expectedCurrent ∧
         r.shippedStatus ≠ newStatus)).length)

/-- One batch of `UpdateStatuses`: the SQL
`UPDATE orders SET shipped_status = ? WHERE order_id IN (?)` with no
condition on the current status. -/
def updateRowsBatch (db : List OrderRow) (batch : List Int)
    (newStatus : String) : List OrderRow :=
  db.map fun r =>
    if r.orderID ∈ batch then { r with shippedStatus := newStatus } else r

/-- `UpdateStatuses`: the unconditional bulk update, issued in batches
of at most 1000 identifiers. -/
def UpdateStatuses (db : List OrderRow) (orderIDs : List Int)
    (newStatus : String) : List OrderRow :=
  match orderIDs with
  | [] => db
  | x :: rest =>
    UpdateStatuses (updateRowsBatch db ((x :: rest).take 1000) newStatus)
      ((x :: rest).drop 1000) newStatus
termination_by orderIDs.length
decreasing_by simp [List.length_drop]; omega

/-- `RobotService.UpdateOrderStatus`: the administrative single-order
transition, delegating to the unconditional `UpdateStatuses`. -/
def UpdateOrderStatus (db : List OrderRow) (orderID : Int)
    (newStatus : String) : List OrderRow :=
  UpdateStatuses db [orderID] newStatus

/-- `RobotService.GenerateDeliveryPlan`: read the candidate snapshot,
solve, and — only when the solver succeeded and selected at least one
order — claim the selected orders with one conditional bulk update.
Concurrent interference between the read and the claim is modelled by
two database states: `dbAtRead` is the state the candidate snapshot is
taken from, `dbAtClaim` the state the claim step runs against (they
coincide when no concurrent writer interleaves).  The function returns
the call's outcome together with the database state after the call.
The tracing spans, logging and the `ExecTx` transaction wrapper of the
Go code carry no data flow and are omitted. -/
def GenerateDeliveryPlan (ctx : Bool) (dbAtRead dbAtClaim : List OrderRow)
    (robotID : String) (capacity : Nat) :
    Except PlanErr DeliveryPlan × List OrderRow :=
  match selectOrdersForDelivery ctx (GetShippingOrders dbAtRead) robotID
      capacity with
  | .error e => (.error e, dbAtClaim)
  | .ok plan =>
    if 0 < plan.orders.length then
      (.ok plan,
       (UpdateStatusesConditional dbAtClaim (plan.orders.map Order.orderID)
         "delivering" "shipping").1)
    else (.ok plan, dbAtClaim)

/-! ## Cancellation-free runs of the DP loops

`dpAll`, `dpPairs` and `reconLoop` are the three loops of the DP path
with the cancellation checks stripped; the bridge lemmas below show
they agree with the instrumented loops when no cancellation fires. -/

/-- The DP row after processing a list of orders, checks stripped. -/
def dpAll (cap : Nat) : List Order → (Nat → Nat) → Nat → Nat
  | [], prev => prev
  | o :: os, prev => dpAll cap os (dpStep cap o prev)

/-- The accumulated `(order, choice-row)` pairs, checks stripped. -/
def dpPairs (cap : Nat) :
    List Order → (Nat → Nat) → List (Order × (Nat → Bool)) →
    List (Order × (Nat → Bool))
  | [], _, acc => acc
  | o :: os, prev, acc =>
    dpPairs cap os (dpStep cap o prev) ((o, dpChoice cap o prev) :: acc)

/-- The reconstruction walk, checks stripped. -/
def reconLoop : List (Order × (Nat → Bool)) → Nat → List Order
  | [], _ => []
  | (o, ch) :: rest, w =>
    if ch w then o :: reconLoop rest (w - o.weight) else reconLoop rest w

lemma dpRun_false (cap : Nat) :
    ∀ (os : List Order) (i : Nat) (prev : Nat → Nat)
      (acc : List (Order × (Nat → Bool))),
    dpRun false cap os i prev acc = .ok (dpAll cap os prev, dpPairs cap os prev acc) := by
  intro os
  induction os with
  | nil => intro i prev acc; rfl
  | cons o os ih => intro i prev acc; simp [dpRun, dpAll, dpPairs, ih]

lemma reconRun_false :
    ∀ (rest : List (Order × (Nat → Bool))) (j w : Nat),
    reconRun false rest j w = .ok (reconLoop rest w) := by
  intro rest
  induction rest with
  | nil => intro j w; rfl
  | cons p rest ih =>
    intro j w
    obtain ⟨o, ch⟩ := p
    cases hch : ch w <;> simp [reconRun, reconLoop, hch, ih]

/-! ## Pointwise facts about one DP step -/

lemma sumWeight_nil : sumWeight [] = 0 := rfl

lemma sumValue_nil : sumValue [] = 0 := rfl

lemma sumWeight_cons (o : Order) (s : List Order) :
    sumWeight (o :: s) = o.weight + sumWeight s := by simp [sumWeight]

lemma sumValue_cons (o : Order) (s : List Order) :
    sumValue (o :: s) = o.value + sumValue s := by simp [sumValue]

lemma sumWeight_append (s t : List Order) :
    sumWeight (s ++ t) = sumWeight s + sumWeight t := by simp [sumWeight]

lemma sumValue_append (s t : List Order) :
    sumValue (s ++ t) = sumValue s + sumValue t := by simp [sumValue]

lemma dpStep_le (cap : Nat) (o : Order) (prev : Nat → Nat) (w : Nat) :
    prev w ≤ dpStep cap o prev w := by
  simp only [dpStep]; split <;> omega

lemma dpStep_take_le (cap : Nat) (o : Order) (prev : Nat → Nat) (w : Nat)
    (h1 : o.weight ≤ w) (h2 : w ≤ cap) :
    prev (w - o.weight) + o.value ≤ dpStep cap o prev w := by
  simp only [dpStep]
  by_cases h3 : prev w < prev (w - o.weight) + o.value
  · rw [if_pos ⟨h1, h2, h3⟩]
  · rw [if_neg fun hc => h3 hc.2.2]; omega

lemma dpStep_of_choice_true (cap : Nat) (o : Order) (prev : Nat → Nat)
    (w : Nat) (h : dpChoice cap o prev w = true) :
    o.weight ≤ w ∧ w ≤ cap ∧
      dpStep cap o prev w = prev (w - o.weight) + o.value := by
  simp only [dpChoice, decide_eq_true_eq] at h
  exact ⟨h.1, h.2.1, by simp only [dpStep, if_pos h]⟩

lemma dpStep_of_choice_false (cap : Nat) (o : Order) (prev : Nat → Nat)
    (w : Nat) (h : dpChoice cap o prev w = false) :
    dpStep cap o prev w = prev w := by
  simp only [dpChoice, decide_eq_false_iff_not] at h
  simp only [dpStep, if_neg h]

/-! ## Optimality of the DP row

Relative to an arbitrary starting row `prev`, the row after processing
`os` dominates every sublist selection from `os`. -/

lemma dpAll_ub (cap : Nat) :
    ∀ (os : List Order) (prev : Nat → Nat) (w : Nat) (s : List Order),
    w ≤ cap → List.Sublist s os → sumWeight s ≤ w →
    sumValue s + prev (w - sumWeight s) ≤ dpAll cap os prev w := by
  intro os
  induction os with
  | nil =>
    intro prev w s hw hs hsw
    rw [List.sublist_nil.mp hs]
    simp [dpAll, sumWeight_nil, sumValue_nil]
  | cons o os ih =>
    intro prev w s hw hs hsw
    cases hs with
    | cons _ h =>
      have h1 := dpStep_le cap o prev (w - sumWeight s)
      have h2 := ih (dpStep cap o prev) w s hw h hsw
      show sumValue s + prev (w - sumWeight s) ≤ dpAll cap os (dpStep cap o prev) w
      omega
    | cons₂ _ h =>
      rename_i t
      have hw2 : o.weight + sumWeight t ≤ w := by
        have := sumWeight_cons o t; omega
      have hts : sumWeight t ≤ w := by omega
      have h2 := ih (dpStep cap o prev) w t hw h hts
      have h3 : o.weight ≤ w - sumWeight t := by omega
      have h4 : w - sumWeight t ≤ cap := by omega
      have h5 := dpStep_take_le cap o prev (w - sumWeight t) h3 h4
      have h6 : w - sumWeight (o :: t) = (w - sumWeight t) - o.weight := by
        rw [sumWeight_cons]; omega
      show sumValue (o :: t) + prev (w - sumWeight (o :: t)) ≤
        dpAll cap os (dpStep cap o prev) w
      rw [h6, sumValue_cons]
      have h7 : prev (w - sumWeight t - o.weight) + o.value ≤
          dpStep cap o prev (w - sumWeight t) := by
        have h8 : (w - sumWeight t) - o.weight = w - sumWeight t - o.weight := rfl
        rw [h8] at h5; omega
      omega

/-! ## Correctness of the backward reconstruction -/

/-- The reconstruction invariant tying a pair list to the DP row it was
recorded against: at every capacity `w ≤ cap` the reconstructed subset
has value exactly `prev w`, weight at most `w`, and only members whose
weight fits the capacity. -/
def ReconOK (cap : Nat) (pairs : List (Order × (Nat → Bool)))
    (prev : Nat → Nat) : Prop :=
  ∀ w, w ≤ cap →
    sumValue (reconLoop pairs w) = prev w ∧
    sumWeight (reconLoop pairs w) ≤ w ∧
    ∀ o ∈ reconLoop pairs w, o.weight ≤ cap

lemma reconOK_nil (cap : Nat) : ReconOK cap [] (fun _ => 0) := by
  intro w _
  simp [reconLoop, sumValue_nil, sumWeight_nil]

lemma reconOK_cons (cap : Nat) (o : Order) (prev : Nat → Nat)
    (acc : List (Order × (Nat → Bool))) (h : ReconOK cap acc prev) :
    ReconOK cap ((o, dpChoice cap o prev) :: acc) (dpStep cap o prev) := by
  intro w hw
  by_cases hch : dpChoice cap o prev w = true
  · obtain ⟨h1, h2, h3⟩ := dpStep_of_choice_true cap o prev w hch
    have hsub : w - o.weight ≤ cap := by omega
    obtain ⟨e1, e2, e3⟩ := h (w - o.weight) hsub
    refine ⟨?_, ?_, ?_⟩
    · simp only [reconLoop, hch, if_true, sumValue_cons, e1, h3]
      omega
    · simp only [reconLoop, hch, if_true, sumWeight_cons]
      omega
    · simp only [reconLoop, hch, if_true]
      intro x hx
      rcases List.mem_cons.mp hx with hx | hx
      · subst hx; omega
      · exact e3 x hx
  · have hch2 : dpChoice cap o prev w = false := by
      cases hcv : dpChoice cap o prev w
      · rfl
      · exact absurd hcv hch
    have h3 := dpStep_of_choice_false cap o prev w hch2
    obtain ⟨e1, e2, e3⟩ := h w hw
    refine ⟨?_, ?_, ?_⟩
    · simp only [reconLoop, hch2, Bool.false_eq_true, if_false, e1, h3]
    · simp only [reconLoop, hch2, Bool.false_eq_true, if_false]
      exact e2
    · simp only [reconLoop, hch2, Bool.false_eq_true, if_false]
      exact e3

lemma dpPairs_reconOK (cap : Nat) :
    ∀ (os : List Order) (prev : Nat → Nat)
      (acc : List (Order × (Nat → Bool))),
    ReconOK cap acc prev →
    ReconOK cap (dpPairs cap os prev acc) (dpAll cap os prev) := by
  intro os
  induction os with
  | nil => intro prev acc h; exact h
  | cons o os ih =>
    intro prev acc h
    exact ih (dpStep cap o prev) _ (reconOK_cons cap o prev acc h)

lemma reconLoop_mem :
    ∀ (pairs : List (Order × (Nat → Bool))) (w : Nat) (o : Order),
    o ∈ reconLoop pairs w → o ∈ pairs.map Prod.fst := by
  intro pairs
  induction pairs with
  | nil => intro w o ho; simp [reconLoop] at ho
  | cons p rest ih =>
    obtain ⟨a, ch⟩ := p
    intro w o ho
    cases hch : ch w <;> simp only [reconLoop, hch] at ho
    · simp only [Bool.false_eq_true, if_false] at ho
      simp only [List.map_cons, List.mem_cons]
      exact Or.inr (ih w o ho)
    · simp only [if_true] at ho
      rcases List.mem_cons.mp ho with h | h
      · simp [h]
      · simp only [List.map_cons, List.mem_cons]
        exact Or.inr (ih _ o h)

lemma dpPairs_fst (cap : Nat) :
    ∀ (os : List Order) (prev : Nat → Nat)
      (acc : List (Order × (Nat → Bool))),
    (dpPairs cap os prev acc).map Prod.fst = os.reverse ++ acc.map Prod.fst := by
  intro os
  induction os with
  | nil => intro prev acc; simp [dpPairs]
  | cons o os ih =>
    intro prev acc
    simp [dpPairs, ih, List.reverse_cons, List.append_assoc]

/-- The cancellation-free DP path of `selectOrdersForDelivery`, written
out in terms of the pure loops. -/
lemma select_false_dp (orders : List Order) (rid : String) (cap : Nat)
    (h1 : orders ≠ []) (h2 : ¬ maxCapacityForDP < cap) :
    selectOrdersForDelivery false orders rid cap =
      .ok ⟨rid,
        sumWeight (reconLoop (dpPairs cap orders (fun _ => 0) []) cap),
        dpAll cap orders (fun _ => 0) cap,
        reconLoop (dpPairs cap orders (fun _ => 0) []) cap⟩ := by
  unfold selectOrdersForDelivery
  rw [if_neg (by simpa using h1), if_neg h2]
  simp only [dpRun_false, reconRun_false]

/-! ## Analysis of the DFS fallback -/

/-- Reference specification of the 0/1-knapsack optimum: the best total
value achievable by a sublist of the candidates within capacity `w`. -/
def bestVal : List Order → Nat → Nat
  | [], _ => 0
  | o :: os, w =>
    max (bestVal os w)
      (if o.weight ≤ w then bestVal os (w - o.weight) + o.value else 0)

lemma bestVal_ub :
    ∀ (os : List Order) (w : Nat) (s : List Order),
    List.Sublist s os → sumWeight s ≤ w → sumValue s ≤ bestVal os w := by
  intro os
  induction os with
  | nil =>
    intro w s hs _
    rw [List.sublist_nil.mp hs]
    simp [bestVal, sumValue_nil]
  | cons o os ih =>
    intro w s hs hw
    cases hs with
    | cons _ h =>
      exact le_trans (ih w s h hw) (le_max_left _ _)
    | cons₂ _ h =>
      rename_i t
      have hw2 : o.weight + sumWeight t ≤ w := by
        rw [sumWeight_cons] at hw; omega
      have h1 : sumWeight t ≤ w - o.weight := by omega
      have h2 := ih (w - o.weight) t h h1
      have h3 : o.weight ≤ w := by omega
      have h4 : bestVal os (w - o.weight) + o.value ≤ bestVal (o :: os) w := by
        simp only [bestVal, if_pos h3]
        exact le_max_right _ _
      rw [sumValue_cons]
      omega

lemma dfsGo_false_fst (cap : Nat) :
    ∀ (rest : List Order) (w v : Nat) (set : List Order) (st : DfsState),
    (dfsGo false cap rest w v set st).1 = false := by
  intro rest
  induction rest with
  | nil =>
    intro w v set st
    simp only [dfsGo, Bool.and_false, Bool.false_eq_true, if_false]
    split
    · rfl
    · split <;> rfl
  | cons o rest ih =>
    intro w v set st
    simp only [dfsGo, Bool.and_false, Bool.false_eq_true, if_false]
    split
    · rfl
    · rw [ih w v set ⟨st.bestValue, st.bestSet, st.steps + 1⟩]
      simp only [Bool.false_eq_true, if_false]
      exact ih _ _ _ _

/-- The cancellation-free leaf equation of the search. -/
lemma dfsGo_false_nil (cap w v : Nat) (set : List Order) (st : DfsState) :
    dfsGo false cap [] w v set st =
      if cap < w then (false, st)
      else if st.bestValue < v then (false, ⟨v, set, st.steps + 1⟩)
      else (false, ⟨st.bestValue, st.bestSet, st.steps + 1⟩) := by
  simp only [dfsGo, Bool.and_false, Bool.false_eq_true, if_false]

/-- The cancellation-free branch equation of the search: explore with
the item excluded, then, from the updated state, with it included. -/
lemma dfsGo_false_cons (cap w v : Nat) (o : Order) (rest set : List Order)
    (st : DfsState) :
    dfsGo false cap (o :: rest) w v set st =
      if cap < w then (false, st)
      else
        dfsGo false cap rest (w + o.weight) (v + o.value) (set ++ [o])
          (dfsGo false cap rest w v set
            ⟨st.bestValue, st.bestSet, st.steps + 1⟩).2 := by
  simp only [dfsGo, Bool.and_false, Bool.false_eq_true, if_false]
  split
  · rfl
  · rw [dfsGo_false_fst cap rest w v set ⟨st.bestValue, st.bestSet, st.steps + 1⟩]
    simp only [Bool.false_eq_true, if_false]

/-- The search computes exactly the knapsack optimum, relative to the
incumbent `bestValue`. -/
lemma dfsGo_bv (cap : Nat) :
    ∀ (rest : List Order) (w v : Nat) (set : List Order) (st : DfsState),
    (dfsGo false cap rest w v set st).2.bestValue =
      if w ≤ cap then max st.bestValue (v + bestVal rest (cap - w))
      else st.bestValue := by
  intro rest
  induction rest with
  | nil =>
    intro w v set st
    rw [dfsGo_false_nil]
    by_cases hpr : cap < w
    · rw [if_pos hpr, if_neg (by omega)]
    · rw [if_neg hpr, if_pos (show w ≤ cap by omega)]
      have e0 : bestVal [] (cap - w) = 0 := rfl
      rw [e0]
      by_cases hbv : st.bestValue < v
      · rw [if_pos hbv]
        show v = max st.bestValue (v + 0)
        omega
      · rw [if_neg hbv]
        show st.bestValue = max st.bestValue (v + 0)
        omega
  | cons o rest ih =>
    intro w v set st
    rw [dfsGo_false_cons]
    by_cases hpr : cap < w
    · rw [if_pos hpr, if_neg (by omega)]
    · rw [if_neg hpr]
      have h1 : (dfsGo false cap rest w v set
          ⟨st.bestValue, st.bestSet, st.steps + 1⟩).2.bestValue =
          max st.bestValue (v + bestVal rest (cap - w)) := by
        rw [ih w v set ⟨st.bestValue, st.bestSet, st.steps + 1⟩,
          if_pos (by omega : w ≤ cap)]
      by_cases hwo : w + o.weight ≤ cap
      · have h2 : (dfsGo false cap rest (w + o.weight) (v + o.value)
            (set ++ [o]) (dfsGo false cap rest w v set
              ⟨st.bestValue, st.bestSet, st.steps + 1⟩).2).2.bestValue =
            max (dfsGo false cap rest w v set
              ⟨st.bestValue, st.bestSet, st.steps + 1⟩).2.bestValue
              ((v + o.value) + bestVal rest (cap - (w + o.weight))) := by
          rw [ih (w + o.weight) (v + o.value) (set ++ [o]) _, if_pos hwo]
        have e1 : cap - (w + o.weight) = cap - w - o.weight := by omega
        rw [e1] at h2
        rw [h2, h1, if_pos (by omega : w ≤ cap)]
        simp only [bestVal]
        rw [if_pos (by omega : o.weight ≤ cap - w)]
        omega
      · have h2 : (dfsGo false cap rest (w + o.weight) (v + o.value)
            (set ++ [o]) (dfsGo false cap rest w v set
              ⟨st.bestValue, st.bestSet, st.steps + 1⟩).2).2.bestValue =
            (dfsGo false cap rest w v set
              ⟨st.bestValue, st.bestSet, st.steps + 1⟩).2.bestValue := by
          rw [ih (w + o.weight) (v + o.value) (set ++ [o]) _, if_neg hwo]
        rw [h2, h1, if_pos (by omega : w ≤ cap)]
        simp only [bestVal]
        rw [if_neg (by omega : ¬ o.weight ≤ cap - w)]
        omega

/-- The incumbent best set always realises the incumbent best value
within capacity. -/
lemma dfsGo_goodSet (cap : Nat) :
    ∀ (rest : List Order) (w v : Nat) (set : List Order) (st : DfsState),
    v = sumValue set → w = sumWeight set →
    sumValue st.bestSet = st.bestValue → sumWeight st.bestSet ≤ cap →
    sumValue (dfsGo false cap rest w v set st).2.bestSet =
        (dfsGo false cap rest w v set st).2.bestValue ∧
    sumWeight (dfsGo false cap rest w v set st).2.bestSet ≤ cap := by
  intro rest
  induction rest with
  | nil =>
    intro w v set st hv hw h1 h2
    rw [dfsGo_false_nil]
    by_cases hpr : cap < w
    · rw [if_pos hpr]; exact ⟨h1, h2⟩
    · rw [if_neg hpr]
      by_cases hbv : st.bestValue < v
      · rw [if_pos hbv]
        refine ⟨hv.symm, ?_⟩
        show sumWeight set ≤ cap
        omega
      · rw [if_neg hbv]; exact ⟨h1, h2⟩
  | cons o rest ih =>
    intro w v set st hv hw h1 h2
    rw [dfsGo_false_cons]
    by_cases hpr : cap < w
    · rw [if_pos hpr]; exact ⟨h1, h2⟩
    · rw [if_neg hpr]
      have g1 := ih w v set ⟨st.bestValue, st.bestSet, st.steps + 1⟩ hv hw h1 h2
      exact ih (w + o.weight) (v + o.value) (set ++ [o]) _
        (by rw [sumValue_append, sumValue_cons, sumValue_nil]; omega)
        (by rw [sumWeight_append, sumWeight_cons, sumWeight_nil]; omega)
        g1.1 g1.2

/-- Every order ever recorded in the best set comes from the allowed
pool (the current selection, the remaining candidates, or the previous
best set). -/
lemma dfsGo_mem (cap : Nat) (allowed : List Order) :
    ∀ (rest : List Order) (w v : Nat) (set : List Order) (st : DfsState),
    (∀ x ∈ set, x ∈ allowed) → (∀ x ∈ rest, x ∈ allowed) →
    (∀ x ∈ st.bestSet, x ∈ allowed) →
    ∀ x ∈ (dfsGo false cap rest w v set st).2.bestSet, x ∈ allowed := by
  intro rest
  induction rest with
  | nil =>
    intro w v set st hset _ hbest
    rw [dfsGo_false_nil]
    by_cases hpr : cap < w
    · rw [if_pos hpr]; exact hbest
    · rw [if_neg hpr]
      by_cases hbv : st.bestValue < v
      · rw [if_pos hbv]; exact hset
      · rw [if_neg hbv]; exact hbest
  | cons o rest ih =>
    intro w v set st hset hrest hbest
    rw [dfsGo_false_cons]
    by_cases hpr : cap < w
    · rw [if_pos hpr]; exact hbest
    · rw [if_neg hpr]
      have ho : o ∈ allowed := hrest o (List.mem_cons_self o rest)
      have hrest2 : ∀ x ∈ rest, x ∈ allowed :=
        fun x hx => hrest x (List.mem_cons_of_mem o hx)
      have g1 := ih w v set ⟨st.bestValue, st.bestSet, st.steps + 1⟩
        hset hrest2 hbest
      refine ih (w + o.weight) (v + o.value) (set ++ [o]) _ ?_ hrest2 g1
      intro x hx
      rcases List.mem_append.mp hx with h | h
      · exact hset x h
      · rw [List.mem_singleton] at h; subst h; exact ho

/-- A run with the cancellation signal raised that nevertheless
finished uncancelled coincides with the cancellation-free run. -/
lemma dfsGo_true_ok (cap : Nat) :
    ∀ (rest : List Order) (w v : Nat) (set : List Order) (st st2 : DfsState),
    dfsGo true cap rest w v set st = (false, st2) →
    dfsGo false cap rest w v set st = (false, st2) := by
  intro rest
  induction rest with
  | nil =>
    intro w v set st st2 h
    simp only [dfsGo, Bool.and_true, Bool.and_false, Bool.false_eq_true,
      if_false] at h ⊢
    by_cases hpr : cap < w
    · rw [if_pos hpr] at h ⊢; exact h
    · rw [if_neg hpr] at h ⊢
      by_cases hck : ((st.steps + 1) % checkEvery == 0) = true
      · rw [if_pos hck] at h; simp at h
      · rw [if_neg hck] at h; exact h
  | cons o rest ih =>
    intro w v set st st2 h
    simp only [dfsGo, Bool.and_true, Bool.and_false, Bool.false_eq_true,
      if_false] at h ⊢
    by_cases hpr : cap < w
    · rw [if_pos hpr] at h ⊢; exact h
    · rw [if_neg hpr] at h ⊢
      by_cases hck : ((st.steps + 1) % checkEvery == 0) = true
      · rw [if_pos hck] at h; simp at h
      · rw [if_neg hck] at h
        rcases hr1 : dfsGo true cap rest w v set
            ⟨st.bestValue, st.bestSet, st.steps + 1⟩ with ⟨c1, stx⟩
        rw [hr1] at h
        cases c1
        · simp only [Bool.false_eq_true, if_false] at h
          have e1 := ih w v set ⟨st.bestValue, st.bestSet, st.steps + 1⟩ stx hr1
          have e2 := ih (w + o.weight) (v + o.value) (set ++ [o]) stx st2 h
          rw [e1]
          simp only [Bool.false_eq_true, if_false]
          exact e2
        · simp at h

/-- The cancellation-free DFS path, written out via the search. -/
lemma selectDFS_false (orders : List Order) (rid : String) (cap : Nat) :
    selectOrdersForDeliveryDFS false orders rid cap =
      .ok ⟨rid,
        sumWeight (dfsGo false cap orders 0 0 [] ⟨0, [], 0⟩).2.bestSet,
        (dfsGo false cap orders 0 0 [] ⟨0, [], 0⟩).2.bestValue,
        (dfsGo false cap orders 0 0 [] ⟨0, [], 0⟩).2.bestSet⟩ := by
  simp only [selectOrdersForDeliveryDFS, dfsGo_false_fst, Bool.false_eq_true,
    if_false]

lemma selectDFS_ok (ctx : Bool) (orders : List Order) (rid : String)
    (cap : Nat) (plan : DeliveryPlan)
    (h : selectOrdersForDeliveryDFS ctx orders rid cap = .ok plan) :
    selectOrdersForDeliveryDFS false orders rid cap = .ok plan := by
  cases ctx
  · exact h
  · simp only [selectOrdersForDeliveryDFS] at h ⊢
    rcases hr : dfsGo true cap orders 0 0 [] ⟨0, [], 0⟩ with ⟨c, st⟩
    rw [hr] at h
    cases c
    · rw [dfsGo_true_ok cap orders 0 0 [] ⟨0, [], 0⟩ st hr]
      simpa using h
    · simp at h

/-- Any successful planning call coincides with the cancellation-free
run: the checks only ever abort, they never alter the result. -/
lemma select_ok (ctx : Bool) (orders : List Order) (rid : String)
    (cap : Nat) (plan : DeliveryPlan)
    (h : selectOrdersForDelivery ctx orders rid cap = .ok plan) :
    selectOrdersForDelivery false orders rid cap = .ok plan := by
  cases ctx
  · exact h
  · unfold selectOrdersForDelivery at h ⊢
    by_cases h0 : orders.length = 0
    · rw [if_pos h0] at h ⊢; exact h
    · rw [if_neg h0] at h ⊢
      by_cases hcap : maxCapacityForDP < cap
      · rw [if_pos hcap] at h ⊢
        exact selectDFS_ok true orders rid cap plan h
      · rw [if_neg hcap] at h ⊢
        exfalso
        obtain ⟨o, os, rfl⟩ : ∃ o os, orders = o :: os := by
          cases orders with
          | nil => simp at h0
          | cons a b => exact ⟨a, b, rfl⟩
        simp [dpRun] at h

/-! ## Assembled facts about successful planning calls -/

lemma weight_le_of_mem :
    ∀ (s : List Order) (o : Order), o ∈ s → o.weight ≤ sumWeight s := by
  intro s
  induction s with
  | nil => intro o ho; simp at ho
  | cons a t ih =>
    intro o ho
    rw [sumWeight_cons]
    rcases List.mem_cons.mp ho with h | h
    · subst h; omega
    · have := ih o h; omega

lemma selectDFS_false_opt (orders : List Order) (rid : String) (cap : Nat)
    (plan : DeliveryPlan)
    (h : selectOrdersForDeliveryDFS false orders rid cap = .ok plan) :
    ∀ s, List.Sublist s orders → sumWeight s ≤ cap →
      sumValue s ≤ plan.totalValue := by
  rw [selectDFS_false] at h
  obtain rfl := Except.ok.inj h
  intro s hs hw
  have hbv : (dfsGo false cap orders 0 0 [] ⟨0, [], 0⟩).2.bestValue =
      if 0 ≤ cap then max 0 (0 + bestVal orders (cap - 0)) else 0 :=
    dfsGo_bv cap orders 0 0 [] ⟨0, [], 0⟩
  have hbv2 : (dfsGo false cap orders 0 0 [] ⟨0, [], 0⟩).2.bestValue =
      bestVal orders cap := by simpa using hbv
  show sumValue s ≤ (dfsGo false cap orders 0 0 [] ⟨0, [], 0⟩).2.bestValue
  rw [hbv2]
  exact bestVal_ub orders cap s hs hw

lemma selectDFS_false_shape (orders : List Order) (rid : String) (cap : Nat)
    (plan : DeliveryPlan)
    (h : selectOrdersForDeliveryDFS false orders rid cap = .ok plan) :
    plan.totalValue = sumValue plan.orders ∧
    plan.totalWeight = sumWeight plan.orders ∧
    plan.totalWeight ≤ cap ∧
    ∀ o ∈ plan.orders, o ∈ orders := by
  rw [selectDFS_false] at h
  obtain rfl := Except.ok.inj h
  have g := dfsGo_goodSet cap orders 0 0 [] ⟨0, [], 0⟩ rfl rfl rfl
    (Nat.zero_le cap)
  refine ⟨g.1.symm, rfl, g.2, ?_⟩
  exact dfsGo_mem cap orders orders 0 0 [] ⟨0, [], 0⟩
    (by intro x hx; simp at hx) (fun x hx => hx)
    (by intro x hx; simp at hx)

lemma select_false_opt (orders : List Order) (rid : String) (cap : Nat)
    (plan : DeliveryPlan)
    (h : selectOrdersForDelivery false orders rid cap = .ok plan) :
    ∀ s, List.Sublist s orders → sumWeight s ≤ cap →
      sumValue s ≤ plan.totalValue := by
  by_cases h0 : orders.length = 0
  · obtain rfl : orders = [] := List.length_eq_zero.mp h0
    unfold selectOrdersForDelivery at h
    rw [if_pos h0] at h
    obtain rfl := Except.ok.inj h
    intro s hs _
    rw [List.sublist_nil.mp hs]
    simp [sumValue_nil]
  · by_cases hcap : maxCapacityForDP < cap
    · unfold selectOrdersForDelivery at h
      rw [if_neg h0, if_pos hcap] at h
      exact selectDFS_false_opt orders rid cap plan h
    · rw [select_false_dp orders rid cap (by simpa using h0) hcap] at h
      obtain rfl := Except.ok.inj h
      intro s hs hw
      have h2 := dpAll_ub cap orders (fun _ => 0) cap s le_rfl hs hw
      simpa using h2

lemma select_false_shape (orders : List Order) (rid : String) (cap : Nat)
    (plan : DeliveryPlan)
    (h : selectOrdersForDelivery false orders rid cap = .ok plan) :
    plan.totalValue = sumValue plan.orders ∧
    plan.totalWeight = sumWeight plan.orders ∧
    plan.totalWeight ≤ cap ∧
    ∀ o ∈ plan.orders, o ∈ orders := by
  by_cases h0 : orders.length = 0
  · obtain rfl : orders = [] := List.length_eq_zero.mp h0
    unfold selectOrdersForDelivery at h
    rw [if_pos h0] at h
    obtain rfl := Except.ok.inj h
    exact ⟨rfl, rfl, Nat.zero_le cap, by intro o ho; simp at ho⟩
  · by_cases hcap : maxCapacityForDP < cap
    · unfold selectOrdersForDelivery at h
      rw [if_neg h0, if_pos hcap] at h
      exact selectDFS_false_shape orders rid cap plan h
    · rw [select_false_dp orders rid cap (by simpa using h0) hcap] at h
      obtain rfl := Except.ok.inj h
      obtain ⟨e1, e2, _⟩ := dpPairs_reconOK cap orders (fun _ => 0) []
        (reconOK_nil cap) cap le_rfl
      refine ⟨e1.symm, rfl, e2, ?_⟩
      intro o ho
      have h5 := reconLoop_mem _ cap o ho
      rw [dpPairs_fst] at h5
      simpa using h5

/-! ## The claims about the planning engine -/

/-- C1: for every list of candidate orders (each with positive weight
and non-negative value) and every capacity, the Plan returned by the
planning engine — `selectOrdersForDelivery` on the DP path and
`selectOrdersForDeliveryDFS` on the fallback path — has a total value
that is maximal among all subsets of the input whose total weight does
not exceed the capacity: no feasible subset has strictly greater total
value. -/
theorem claim_C1_plan_value_maximal :
    (∀ (ctx : Bool) (orders : List Order) (rid : String) (cap : Nat)
       (plan : DeliveryPlan),
      (∀ o ∈ orders, 0 < o.weight) →
      selectOrdersForDelivery ctx orders rid cap = .ok plan →
      ∀ s, List.Sublist s orders → sumWeight s ≤ cap →
        sumValue s ≤ plan.totalValue) ∧
    (∀ (ctx : Bool) (orders : List Order) (rid : String) (cap : Nat)
       (plan : DeliveryPlan),
      (∀ o ∈ orders, 0 < o.weight) →
      selectOrdersForDeliveryDFS ctx orders rid cap = .ok plan →
      ∀ s, List.Sublist s orders → sumWeight s ≤ cap →
        sumValue s ≤ plan.totalValue) := by
  constructor
  · intro ctx orders rid cap plan _ h
    exact select_false_opt orders rid cap plan
      (select_ok ctx orders rid cap plan h)
  · intro ctx orders rid cap plan _ h
    exact selectDFS_false_opt orders rid cap plan
      (selectDFS_ok ctx orders rid cap plan h)

theorem claim_C1_witness :
    (∀ s, List.Sublist s [(⟨1, 2, 3⟩ : Order), ⟨2, 3, 4⟩, ⟨3, 4, 5⟩, ⟨4, 5, 6⟩] →
      sumWeight s ≤ 5 →
      sumValue s ≤ DeliveryPlan.totalValue ⟨"r", 5, 7, [⟨2, 3, 4⟩, ⟨1, 2, 3⟩]⟩) ∧
    (∀ s, List.Sublist s [(⟨1, 2, 3⟩ : Order), ⟨2, 3, 4⟩, ⟨3, 4, 5⟩, ⟨4, 5, 6⟩] →
      sumWeight s ≤ 5 →
      sumValue s ≤ DeliveryPlan.totalValue ⟨"r", 5, 7, [⟨1, 2, 3⟩, ⟨2, 3, 4⟩]⟩) :=
  ⟨claim_C1_plan_value_maximal.1 false
      [⟨1, 2, 3⟩, ⟨2, 3, 4⟩, ⟨3, 4, 5⟩, ⟨4, 5, 6⟩] "r" 5
      ⟨"r", 5, 7, [⟨2, 3, 4⟩, ⟨1, 2, 3⟩]⟩ (by decide) rfl,
   claim_C1_plan_value_maximal.2 false
      [⟨1, 2, 3⟩, ⟨2, 3, 4⟩, ⟨3, 4, 5⟩, ⟨4, 5, 6⟩] "r" 5
      ⟨"r", 5, 7, [⟨1, 2, 3⟩, ⟨2, 3, 4⟩]⟩ (by decide) rfl⟩

/-- C2: for every list of candidate orders with positive weights and
every capacity, the Plan returned on either path has `TotalWeight` at
most the requested capacity. -/
theorem claim_C2_plan_weight_le_capacity :
    (∀ (ctx : Bool) (orders : List Order) (rid : String) (cap : Nat)
       (plan : DeliveryPlan),
      (∀ o ∈ orders, 0 < o.weight) →
      selectOrdersForDelivery ctx orders rid cap = .ok plan →
      plan.totalWeight ≤ cap) ∧
    (∀ (ctx : Bool) (orders : List Order) (rid : String) (cap : Nat)
       (plan : DeliveryPlan),
      (∀ o ∈ orders, 0 < o.weight) →
      selectOrdersForDeliveryDFS ctx orders rid cap = .ok plan →
      plan.totalWeight ≤ cap) := by
  constructor
  · intro ctx orders rid cap plan _ h
    exact (select_false_shape orders rid cap plan
      (select_ok ctx orders rid cap plan h)).2.2.1
  · intro ctx orders rid cap plan _ h
    exact (selectDFS_false_shape orders rid cap plan
      (selectDFS_ok ctx orders rid cap plan h)).2.2.1

theorem claim_C2_witness :
    DeliveryPlan.totalWeight ⟨"r", 2, 3, [⟨1, 2, 3⟩]⟩ ≤ 5 ∧
    DeliveryPlan.totalWeight ⟨"r", 2, 3, [⟨1, 2, 3⟩]⟩ ≤ 5 :=
  ⟨claim_C2_plan_weight_le_capacity.1 false [⟨1, 2, 3⟩] "r" 5
      ⟨"r", 2, 3, [⟨1, 2, 3⟩]⟩ (by decide) rfl,
   claim_C2_plan_weight_le_capacity.2 false [⟨1, 2, 3⟩] "r" 5
      ⟨"r", 2, 3, [⟨1, 2, 3⟩]⟩ (by decide) rfl⟩

/-- C10: every Plan successfully returned (on either path) is
internally consistent: `TotalWeight` is the sum of the weights of its
orders and `TotalValue` the sum of their values (on the DP path the DP
optimum equals the summed value of the reconstructed subset). -/
theorem claim_C10_plan_internally_consistent :
    (∀ (ctx : Bool) (orders : List Order) (rid : String) (cap : Nat)
       (plan : DeliveryPlan),
      selectOrdersForDelivery ctx orders rid cap = .ok plan →
      plan.totalWeight = sumWeight plan.orders ∧
      plan.totalValue = sumValue plan.orders) ∧
    (∀ (ctx : Bool) (orders : List Order) (rid : String) (cap : Nat)
       (plan : DeliveryPlan),
      selectOrdersForDeliveryDFS ctx orders rid cap = .ok plan →
      plan.totalWeight = sumWeight plan.orders ∧
      plan.totalValue = sumValue plan.orders) := by
  constructor
  · intro ctx orders rid cap plan h
    obtain ⟨e1, e2, _, _⟩ := select_false_shape orders rid cap plan
      (select_ok ctx orders rid cap plan h)
    exact ⟨e2, e1⟩
  · intro ctx orders rid cap plan h
    obtain ⟨e1, e2, _, _⟩ := selectDFS_false_shape orders rid cap plan
      (selectDFS_ok ctx orders rid cap plan h)
    exact ⟨e2, e1⟩

theorem claim_C10_witness :
    (DeliveryPlan.totalWeight ⟨"r", 5, 7, [⟨2, 3, 4⟩, ⟨1, 2, 3⟩]⟩ =
        sumWeight [⟨2, 3, 4⟩, ⟨1, 2, 3⟩] ∧
      DeliveryPlan.totalValue ⟨"r", 5, 7, [⟨2, 3, 4⟩, ⟨1, 2, 3⟩]⟩ =
        sumValue [⟨2, 3, 4⟩, ⟨1, 2, 3⟩]) ∧
    (DeliveryPlan.totalWeight ⟨"r", 5, 7, [⟨1, 2, 3⟩, ⟨2, 3, 4⟩]⟩ =
        sumWeight [⟨1, 2, 3⟩, ⟨2, 3, 4⟩] ∧
      DeliveryPlan.totalValue ⟨"r", 5, 7, [⟨1, 2, 3⟩, ⟨2, 3, 4⟩]⟩ =
        sumValue [⟨1, 2, 3⟩, ⟨2, 3, 4⟩]) :=
  ⟨claim_C10_plan_internally_consistent.1 false
      [⟨1, 2, 3⟩, ⟨2, 3, 4⟩, ⟨3, 4, 5⟩, ⟨4, 5, 6⟩] "r" 5
      ⟨"r", 5, 7, [⟨2, 3, 4⟩, ⟨1, 2, 3⟩]⟩ rfl,
   claim_C10_plan_internally_consistent.2 false
      [⟨1, 2, 3⟩, ⟨2, 3, 4⟩, ⟨3, 4, 5⟩, ⟨4, 5, 6⟩] "r" 5
      ⟨"r", 5, 7, [⟨1, 2, 3⟩, ⟨2, 3, 4⟩]⟩ rfl⟩

/-- C7: on either path, an order whose individual weight exceeds the
capacity is never part of the returned Plan; in particular a single
overweight candidate yields an empty Plan. -/
theorem claim_C7_overweight_never_selected :
    (∀ (ctx : Bool) (orders : List Order) (rid : String) (cap : Nat)
       (plan : DeliveryPlan),
      selectOrdersForDelivery ctx orders rid cap = .ok plan →
      ∀ o ∈ plan.orders, o.weight ≤ cap) ∧
    (∀ (ctx : Bool) (orders : List Order) (rid : String) (cap : Nat)
       (plan : DeliveryPlan),
      selectOrdersForDeliveryDFS ctx orders rid cap = .ok plan →
      ∀ o ∈ plan.orders, o.weight ≤ cap) ∧
    (∀ (ctx : Bool) (o : Order) (rid : String) (cap : Nat)
       (plan : DeliveryPlan),
      cap < o.weight →
      selectOrdersForDelivery ctx [o] rid cap = .ok plan →
      plan.orders = []) := by
  refine ⟨?_, ?_, ?_⟩
  · intro ctx orders rid cap plan h o ho
    obtain ⟨_, e2, e3, _⟩ := select_false_shape orders rid cap plan
      (select_ok ctx orders rid cap plan h)
    have h4 := weight_le_of_mem plan.orders o ho
    omega
  · intro ctx orders rid cap plan h o ho
    obtain ⟨_, e2, e3, _⟩ := selectDFS_false_shape orders rid cap plan
      (selectDFS_ok ctx orders rid cap plan h)
    have h4 := weight_le_of_mem plan.orders o ho
    omega
  · intro ctx o rid cap plan hcap h
    obtain ⟨_, e2, e3, e4⟩ := select_false_shape [o] rid cap plan
      (select_ok ctx [o] rid cap plan h)
    rw [List.eq_nil_iff_forall_not_mem]
    intro x hx
    have hxo : x = o := by simpa using e4 x hx
    subst hxo
    have h5 := weight_le_of_mem plan.orders x hx
    omega

theorem claim_C7_witness :
    (∀ o ∈ DeliveryPlan.orders ⟨"r", 2, 3, [⟨1, 2, 3⟩]⟩, o.weight ≤ 5) ∧
    (∀ o ∈ DeliveryPlan.orders ⟨"r", 2, 3, [⟨1, 2, 3⟩]⟩, o.weight ≤ 5) ∧
    DeliveryPlan.orders ⟨"r", 0, 0, []⟩ = [] :=
  ⟨claim_C7_overweight_never_selected.1 false [⟨1, 2, 3⟩] "r" 5
      ⟨"r", 2, 3, [⟨1, 2, 3⟩]⟩ rfl,
   claim_C7_overweight_never_selected.2.1 false [⟨1, 2, 3⟩] "r" 5
      ⟨"r", 2, 3, [⟨1, 2, 3⟩]⟩ rfl,
   claim_C7_overweight_never_selected.2.2 false ⟨1, 9, 5⟩ "r" 5
      ⟨"r", 0, 0, []⟩ (by decide) rfl⟩

/-- C6: with positive-weight candidates (the input domain of the
engine), an empty candidate list or a zero capacity yields the Plan
with empty order set, `TotalWeight` 0 and `TotalValue` 0. -/
theorem claim_C6_empty_or_zero_capacity_plan :
    ∀ (ctx : Bool) (orders : List Order) (rid : String) (cap : Nat)
      (plan : DeliveryPlan),
    (∀ o ∈ orders, 0 < o.weight) →
    (orders = [] ∨ cap = 0) →
    selectOrdersForDelivery ctx orders rid cap = .ok plan →
    plan = ⟨rid, 0, 0, []⟩ := by
  intro ctx orders rid cap plan hpos hdisj h
  have h2 := select_ok ctx orders rid cap plan h
  rcases hdisj with rfl | rfl
  · unfold selectOrdersForDelivery at h2
    rw [if_pos List.length_nil] at h2
    exact (Except.ok.inj h2).symm
  · by_cases h0 : orders.length = 0
    · obtain rfl : orders = [] := List.length_eq_zero.mp h0
      unfold selectOrdersForDelivery at h2
      rw [if_pos h0] at h2
      exact (Except.ok.inj h2).symm
    · have hcap : ¬ maxCapacityForDP < 0 := by decide
      rw [select_false_dp orders rid 0 (by simpa using h0) hcap] at h2
      obtain rfl := Except.ok.inj h2
      obtain ⟨e1, e2, _⟩ := dpPairs_reconOK 0 orders (fun _ => 0) []
        (reconOK_nil 0) 0 le_rfl
      have hS : reconLoop (dpPairs 0 orders (fun _ => 0) []) 0 = [] := by
        cases hS0 : reconLoop (dpPairs 0 orders (fun _ => 0) []) 0 with
        | nil => rfl
        | cons a t =>
          exfalso
          have ha : a ∈ reconLoop (dpPairs 0 orders (fun _ => 0) []) 0 := by
            rw [hS0]; exact List.mem_cons_self a t
          have hmem := reconLoop_mem _ 0 a ha
          rw [dpPairs_fst] at hmem
          have haord : a ∈ orders := by simpa using hmem
          have hw := hpos a haord
          rw [hS0, sumWeight_cons] at e2
          omega
      have hF : dpAll 0 orders (fun _ => 0) 0 = 0 := by
        rw [← e1, hS]; rfl
      rw [hS, hF]
      rfl

theorem claim_C6_witness :
    (∀ o ∈ [(⟨1, 2, 3⟩ : Order)], 0 < o.weight) ∧
    (⟨"r", 0, 0, []⟩ : DeliveryPlan) = ⟨"r", 0, 0, []⟩ :=
  ⟨by decide,
   claim_C6_empty_or_zero_capacity_plan false [⟨1, 2, 3⟩] "r" 0
      ⟨"r", 0, 0, []⟩ (by decide) (Or.inr rfl) rfl⟩

/-! ## The claims about `GenerateDeliveryPlan` and the repository -/

/-- C5: if the cancellation signal is observed during the solving
phase (the solver returns the distinct cancellation outcome), the call
returns that outcome, produces no Plan and performs no status write:
the database state at claim time is returned untouched, with no
conditional bulk update attempted. -/
theorem claim_C5_cancel_during_solve_no_write :
    ∀ (ctx : Bool) (dbAtRead dbAtClaim : List OrderRow) (rid : String)
      (cap : Nat) (e : PlanErr),
    selectOrdersForDelivery ctx (GetShippingOrders dbAtRead) rid cap =
      .error e →
    GenerateDeliveryPlan ctx dbAtRead dbAtClaim rid cap =
      (.error e, dbAtClaim) := by
  intro ctx dbr dbc rid cap e h
  simp only [GenerateDeliveryPlan, h]

theorem claim_C5_witness :
    GenerateDeliveryPlan true [⟨1, 1, 1, "shipping"⟩] [⟨1, 1, 1, "shipping"⟩]
        "r" 1 =
      (.error PlanErr.cancelled, [⟨1, 1, 1, "shipping"⟩]) :=
  claim_C5_cancel_during_solve_no_write true [⟨1, 1, 1, "shipping"⟩]
    [⟨1, 1, 1, "shipping"⟩] "r" 1 PlanErr.cancelled rfl

/-- C8: when the conditional bulk update reports fewer affected rows
than the number of requested identifiers, `GenerateDeliveryPlan` still
completes without error and the final state is exactly the result of
that single conditional update: the engine is not invoked a second
time and no further write is issued. -/
theorem claim_C8_partial_claim_not_error :
    ∀ (ctx : Bool) (dbAtRead dbAtClaim : List OrderRow) (rid : String)
      (cap : Nat) (plan : DeliveryPlan),
    selectOrdersForDelivery ctx (GetShippingOrders dbAtRead) rid cap =
      .ok plan →
    plan.orders ≠ [] →
    (UpdateStatusesConditional dbAtClaim (plan.orders.map Order.orderID)
      "delivering" "shipping").2 < (plan.orders.map Order.orderID).length →
    GenerateDeliveryPlan ctx dbAtRead dbAtClaim rid cap =
      (.ok plan,
       (UpdateStatusesConditional dbAtClaim (plan.orders.map Order.orderID)
         "delivering" "shipping").1) := by
  intro ctx dbr dbc rid cap plan h hne _
  simp only [GenerateDeliveryPlan, h]
  rw [if_pos (List.length_pos.mpr hne)]

theorem claim_C8_witness :
    GenerateDeliveryPlan false [⟨1, 1, 1, "shipping"⟩]
        [⟨1, 1, 1, "delivering"⟩] "r" 1 =
      (.ok ⟨"r", 1, 1, [⟨1, 1, 1⟩]⟩, [⟨1, 1, 1, "delivering"⟩]) :=
  (claim_C8_partial_claim_not_error false [⟨1, 1, 1, "shipping"⟩]
    [⟨1, 1, 1, "delivering"⟩] "r" 1 ⟨"r", 1, 1, [⟨1, 1, 1⟩]⟩ rfl
    (by decide) (by decide)).trans rfl

/-! ## The candidate read truncates (C3) -/

lemma insertByRatio_length (a : OrderRow) :
    ∀ l : List OrderRow, (insertByRatio a l).length = l.length + 1 := by
  intro l
  induction l with
  | nil => rfl
  | cons b rest ih =>
    simp only [insertByRatio]
    split
    · simp
    · simp [ih]

lemma sortByRatio_length :
    ∀ l : List OrderRow, (sortByRatio l).length = l.length := by
  intro l
  induction l with
  | nil => rfl
  | cons a rest ih => simp [sortByRatio, insertByRatio_length, ih]

/-- A database holding `n` awaiting-shipment orders (distinct
identifiers, identical weight/value). -/
def mkShippingRows (n : Nat) : List OrderRow :=
  (List.range n).map fun i => ⟨Int.ofNat i, 1, 1, "shipping"⟩

lemma mkShippingRows_length (n : Nat) : (mkShippingRows n).length = n := by
  simp [mkShippingRows]

lemma mkShippingRows_filter (n : Nat) :
    (mkShippingRows n).filter (fun r => r.shippedStatus == "shipping") =
      mkShippingRows n := by
  apply List.filter_eq_self.mpr
  intro a ha
  obtain ⟨i, _, rfl⟩ := List.mem_map.mp ha
  rfl

/-- C3 (refuted: the code truncates): on a database with 2001 orders in
"shipping" status, `GetShippingOrders` returns only 2000 candidates —
the `LIMIT 2000` of its query silently drops a shipping order, although
the comment on `GenerateDeliveryPlan` (robot.go) states that all
shipping orders must be targeted and that limiting the fetch count is
penalised. -/
theorem claim_C3_candidate_read_truncates :
    (GetShippingOrders (mkShippingRows 2001)).length = 2000 ∧
    ((mkShippingRows 2001).filter
      fun r => r.shippedStatus == "shipping").length = 2001 := by
  constructor
  · unfold GetShippingOrders
    rw [List.length_map, List.length_take, mkShippingRows_filter,
      sortByRatio_length, mkShippingRows_length]
    rfl
  · rw [mkShippingRows_filter, mkShippingRows_length]

/-! ## The conditional bulk update (C4) -/

lemma row_update_ne (r : OrderRow) (s : String)
    (h : r.shippedStatus ≠ s) :
    r ≠ ({ r with shippedStatus := s } : OrderRow) :=
  fun he => h (congrArg OrderRow.shippedStatus he)

lemma row_update_self (r : OrderRow) (s : String)
    (h : r.shippedStatus = s) :
    ({ r with shippedStatus := s } : OrderRow) = r := by
  cases r
  simp_all

lemma zip_self_filter_ne (db : List OrderRow) :
    ((db.zip db).filter fun p => decide (p.1 ≠ p.2)).length = 0 := by
  induction db with
  | nil => rfl
  | cons r db ih => simpa using ih

lemma cond_count_eq (ids : List Int) (newStatus expectedCurrent : String) :
    ∀ db : List OrderRow,
    (db.filter fun r => decide (r.orderID ∈ ids ∧
      r.shippedStatus = expectedCurrent ∧
      r.shippedStatus ≠ newStatus)).length =
    ((db.zip (db.map fun r =>
        if r.orderID ∈ ids ∧ r.shippedStatus = expectedCurrent
        then { r with shippedStatus := newStatus } else r)).filter
      fun p => decide (p.1 ≠ p.2)).length := by
  intro db
  induction db with
  | nil => rfl
  | cons r db ih =>
    simp only [List.map_cons, List.zip_cons_cons, List.filter_cons]
    by_cases hc : r.orderID ∈ ids ∧ r.shippedStatus = expectedCurrent
    · rw [if_pos hc]
      by_cases hs : r.shippedStatus = newStatus
      · have he : ({ r with shippedStatus := newStatus } : OrderRow) = r :=
          row_update_self r newStatus hs
        have hL : ¬(r.orderID ∈ ids ∧ r.shippedStatus = expectedCurrent ∧
            r.shippedStatus ≠ newStatus) := by
          rintro ⟨_, _, h3⟩; exact h3 hs
        have hR : ¬(r ≠ ({ r with shippedStatus := newStatus } : OrderRow)) :=
          fun h3 => h3 he.symm
        rw [if_neg (by simpa using hL), if_neg (by simpa using hR)]
        exact ih
      · have hL : r.orderID ∈ ids ∧ r.shippedStatus = expectedCurrent ∧
            r.shippedStatus ≠ newStatus := ⟨hc.1, hc.2, hs⟩
        have hR : r ≠ ({ r with shippedStatus := newStatus } : OrderRow) :=
          row_update_ne r newStatus hs
        rw [if_pos (by simpa using hL), if_pos (by simpa using hR)]
        simp only [List.length_cons, ih]
    · rw [if_neg hc]
      have hL : ¬(r.orderID ∈ ids ∧ r.shippedStatus = expectedCurrent ∧
          r.shippedStatus ≠ newStatus) := fun h3 => hc ⟨h3.1, h3.2.1⟩
      have hR : ¬(r ≠ r) := fun h3 => h3 rfl
      rw [if_neg (by simpa using hL), if_neg (by simp)]
      exact ih

/-- The non-empty case of `UpdateStatusesConditional`, written out. -/
lemma updCond_eq (db : List OrderRow) (ids : List Int)
    (newStatus expectedCurrent : String) (hids : ¬ ids = []) :
    UpdateStatusesConditional db ids newStatus expectedCurrent =
      (db.map (fun r =>
        if r.orderID ∈ ids ∧ r.shippedStatus = expectedCurrent
        then { r with shippedStatus := newStatus } else r),
       (db.filter fun r => decide (r.orderID ∈ ids ∧
         r.shippedStatus = expectedCurrent ∧
         r.shippedStatus ≠ newStatus)).length) := by
  unfold UpdateStatusesConditional
  rw [if_neg hids]

/-- C4: the conditional bulk update rewrites exactly the rows whose
identifier is listed and whose status equals the required current
status, leaves every other row unchanged, reports the number of rows
actually changed, and a second identical claim attempt (for a genuine
transition, `newStatus ≠ expectedCurrent`) changes nothing and reports
0. -/
theorem claim_C4_conditional_bulk_update :
    ∀ (db : List OrderRow) (ids : List Int)
      (newStatus expectedCurrent : String),
    (UpdateStatusesConditional db ids newStatus expectedCurrent).1 =
      db.map (fun r =>
        if r.orderID ∈ ids ∧ r.shippedStatus = expectedCurrent
        then { r with shippedStatus := newStatus } else r) ∧
    (UpdateStatusesConditional db ids newStatus expectedCurrent).2 =
      ((db.zip
        (UpdateStatusesConditional db ids newStatus expectedCurrent).1).filter
        fun p => decide (p.1 ≠ p.2)).length ∧
    (newStatus ≠ expectedCurrent →
      UpdateStatusesConditional
        (UpdateStatusesConditional db ids newStatus expectedCurrent).1
        ids newStatus expectedCurrent =
      ((UpdateStatusesConditional db ids newStatus expectedCurrent).1, 0)) := by
  intro db ids newStatus expectedCurrent
  by_cases hids : ids = []
  · subst hids
    have hmap : db.map (fun r =>
        if r.orderID ∈ ([] : List Int) ∧ r.shippedStatus = expectedCurrent
        then { r with shippedStatus := newStatus } else r) = db := by
      calc db.map _ = db.map id := List.map_congr_left (fun r _ => by simp)
        _ = db := List.map_id db
    refine ⟨hmap.symm, ?_, fun _ => rfl⟩
    show (0 : Nat) = _
    rw [show (UpdateStatusesConditional db [] newStatus expectedCurrent).1
      = db from rfl]
    exact (zip_self_filter_ne db).symm
  · have hfst : (UpdateStatusesConditional db ids newStatus
        expectedCurrent).1 =
      db.map (fun r =>
        if r.orderID ∈ ids ∧ r.shippedStatus = expectedCurrent
        then { r with shippedStatus := newStatus } else r) := by
      rw [updCond_eq db ids newStatus expectedCurrent hids]
    refine ⟨hfst, ?_, ?_⟩
    · rw [hfst, updCond_eq db ids newStatus expectedCurrent hids]
      exact cond_count_eq ids newStatus expectedCurrent db
    · intro hne
      have hkey : ∀ r ∈ (UpdateStatusesConditional db ids newStatus
          expectedCurrent).1,
          ¬(r.orderID ∈ ids ∧ r.shippedStatus = expectedCurrent) := by
        rw [hfst]
        intro r hr
        obtain ⟨r0, _, rfl⟩ := List.mem_map.mp hr
        by_cases hc : r0.orderID ∈ ids ∧ r0.shippedStatus = expectedCurrent
        · rw [if_pos hc]
          rintro ⟨_, hst⟩
          exact hne hst
        · rw [if_neg hc]
          exact hc
      have hmap2 : (UpdateStatusesConditional db ids newStatus
          expectedCurrent).1.map (fun r =>
            if r.orderID ∈ ids ∧ r.shippedStatus = expectedCurrent
            then { r with shippedStatus := newStatus } else r) =
          (UpdateStatusesConditional db ids newStatus expectedCurrent).1 := by
        calc (UpdateStatusesConditional db ids newStatus
            expectedCurrent).1.map _ =
            (UpdateStatusesConditional db ids newStatus
              expectedCurrent).1.map id :=
          List.map_congr_left (fun r hr => by rw [if_neg (hkey r hr)]; rfl)
          _ = _ := List.map_id _
      have hcnt : ((UpdateStatusesConditional db ids newStatus
          expectedCurrent).1.filter fun r => decide (r.orderID ∈ ids ∧
            r.shippedStatus = expectedCurrent ∧
            r.shippedStatus ≠ newStatus)).length = 0 := by
        rw [List.length_eq_zero]
        apply List.filter_eq_nil_iff.mpr
        intro r hr
        simp only [decide_eq_true_eq, not_and]
        intro h1 h2
        exact absurd ⟨h1, h2⟩ (hkey r hr)
      rw [updCond_eq (UpdateStatusesConditional db ids newStatus
        expectedCurrent).1 ids newStatus expectedCurrent hids]
      rw [hmap2, hcnt]

theorem claim_C4_witness :
    ("delivering" : String) ≠ "shipping" ∧
    UpdateStatusesConditional
        (UpdateStatusesConditional [⟨5, 1, 1, "shipping"⟩] [5]
          "delivering" "shipping").1
        [5] "delivering" "shipping" =
      ((UpdateStatusesConditional [⟨5, 1, 1, "shipping"⟩] [5]
        "delivering" "shipping").1, 0) :=
  ⟨by decide,
   (claim_C4_conditional_bulk_update [⟨5, 1, 1, "shipping"⟩] [5]
     "delivering" "shipping").2.2 (by decide)⟩

/-! ## The unconditional administrative update (C9) -/

lemma orderID_set_status (r : OrderRow) (s : String) :
    ({ r with shippedStatus := s } : OrderRow).orderID = r.orderID := rfl

lemma updateStatuses_nil (db : List OrderRow) (st : String) :
    UpdateStatuses db [] st = db := by
  simp only [UpdateStatuses]

lemma updateStatuses_cons (db : List OrderRow) (x : Int) (rest : List Int)
    (st : String) :
    UpdateStatuses db (x :: rest) st =
      UpdateStatuses (updateRowsBatch db ((x :: rest).take 1000) st)
        ((x :: rest).drop 1000) st := by
  simp only [UpdateStatuses]

lemma updateStatuses_eq_map_aux :
    ∀ (n : Nat) (ids : List Int), ids.length ≤ n →
    ∀ (db : List OrderRow) (st : String),
    UpdateStatuses db ids st =
      db.map (fun r =>
        if r.orderID ∈ ids then { r with shippedStatus := st } else r) := by
  intro n
  induction n with
  | zero =>
    intro ids hlen db st
    obtain rfl : ids = [] := List.length_eq_zero.mp (Nat.le_zero.mp hlen)
    rw [updateStatuses_nil]
    calc db = db.map id := (List.map_id db).symm
      _ = db.map _ := List.map_congr_left (fun r _ => by simp)
  | succ n ih =>
    intro ids hlen db st
    cases ids with
    | nil =>
      rw [updateStatuses_nil]
      calc db = db.map id := (List.map_id db).symm
        _ = db.map _ := List.map_congr_left (fun r _ => by simp)
    | cons x rest =>
      rw [updateStatuses_cons]
      have hlen2 : ((x :: rest).drop 1000).length ≤ n := by
        rw [List.length_drop]
        simp only [List.length_cons] at hlen ⊢
        omega
      rw [ih ((x :: rest).drop 1000) hlen2 _ st]
      unfold updateRowsBatch
      rw [List.map_map]
      apply List.map_congr_left
      intro r _
      have hin : (r.orderID ∈ x :: rest) ↔
          (r.orderID ∈ (x :: rest).take 1000 ∨
           r.orderID ∈ (x :: rest).drop 1000) := by
        conv_lhs => rw [← List.take_append_drop 1000 (x :: rest)]
        exact List.mem_append
      show (if (if r.orderID ∈ (x :: rest).take 1000
              then { r with shippedStatus := st } else r).orderID ∈
                (x :: rest).drop 1000
            then { (if r.orderID ∈ (x :: rest).take 1000
              then { r with shippedStatus := st } else r) with
                shippedStatus := st }
            else (if r.orderID ∈ (x :: rest).take 1000
              then { r with shippedStatus := st } else r)) =
          (if r.orderID ∈ x :: rest
            then { r with shippedStatus := st } else r)
      by_cases h1 : r.orderID ∈ (x :: rest).take 1000
      · rw [if_pos h1, orderID_set_status]
        by_cases h2 : r.orderID ∈ (x :: rest).drop 1000
        · rw [if_pos h2, if_pos (hin.mpr (Or.inl h1))]
        · rw [if_neg h2, if_pos (hin.mpr (Or.inl h1))]
      · rw [if_neg h1]
        by_cases h2 : r.orderID ∈ (x :: rest).drop 1000
        · rw [if_pos h2, if_pos (hin.mpr (Or.inr h2))]
        · rw [if_neg h2, if_neg (fun hm => (hin.mp hm).elim h1 h2)]

/-- C9: the unconditional administrative update (`TransitionStatus`
via `UpdateStatuses`) sets the status of every listed order to the new
status with no condition on the current status — so it can overwrite a
status previously set by a conditional claim. -/
theorem claim_C9_unconditional_overwrite :
    ∀ (db : List OrderRow) (ids : List Int) (newStatus : String),
    UpdateStatuses db ids newStatus =
      db.map (fun r =>
        if r.orderID ∈ ids then { r with shippedStatus := newStatus }
        else r) ∧
    ∀ orderID : Int,
      UpdateOrderStatus db orderID newStatus =
        db.map (fun r =>
          if r.orderID = orderID then { r with shippedStatus := newStatus }
          else r) := by
  intro db ids st
  refine ⟨updateStatuses_eq_map_aux ids.length ids le_rfl db st, ?_⟩
  intro oid
  unfold UpdateOrderStatus
  rw [updateStatuses_eq_map_aux 1 [oid] (by simp) db st]
  apply List.map_congr_left
  intro r _
  simp [List.mem_singleton]

end CatTuning
